import Mathlib

/-!
Verification development for the TikTok gift leaderboard bot (`bot.py`).

The Python source is shallowly embedded: the SQLite tables `gifts`,
`weekly_top5` and `meta` become Lean lists inside a `DB` structure, the SQL
statements become list operations with the same semantics, and the
`asyncio` schedule loop becomes an explicit step function over a list of
wake inputs.  A Discord post (`discord_post`) either succeeds or raises a
`RuntimeError` (sink status >= 300), which we model with an explicit
success flag per attempted post; an uncaught exception terminates the
surrounding loop, exactly as it would terminate the Python `schedule_loop`.

Modelling notes:
* `make_event_key` computes `sha1(week|user|gift|diamonds|amount|bucket)`.
  We model the hash abstractly as an injective function of its input
  fields, i.e. the dedup key IS the tuple of fields (an `EventKey`
  structure).  This is the standard idealisation of a collision-free hash.
* Timestamps are UTC unix seconds as `Nat`; `int(ts.timestamp()) // 2`
  becomes `ts / 2` (truncating division agrees with floor on naturals).
* The SQLite query `GROUP BY gifter_username ORDER BY 2 DESC LIMIT 5` is
  embedded as: group rows by gifter in first-occurrence order, sum
  `diamonds * amount` per group, stable-sort descending by total, take 5.
* Strings handled by the formatter are embedded as `List Char` so that
  Python slicing/padding becomes `List.take` / `List.replicate`.
-/

set_option maxRecDepth 4000

namespace Bot

/-- Dedup key of a gift event: the fields hashed by `make_event_key`
(`week_id|user|gift_name|diamonds|amount|bucket` with `bucket =
int(ts_utc.timestamp()) // 2`), the sha1 being modelled as injective. -/
structure EventKey where
  week : String
  user : String
  gname : String
  diamonds : Nat
  amount : Nat
  bucket : Nat
deriving DecidableEq, Repr

/-- `make_event_key`: the 2-second-bucketed dedup key of an event, with
`ts` the arrival timestamp in unix seconds. -/
def make_event_key (week user gname : String) (diamonds amount ts : Nat) : EventKey :=
  ⟨week, user, gname, diamonds, amount, ts / 2⟩

/-- One row of the `gifts` table (column `id` is represented by list
position: rows are appended in insertion order). -/
structure GiftRow where
  key : EventKey
  week : String
  gifter : String
  gname : String
  amount : Nat
  diamonds : Nat
  createdAt : Nat
deriving DecidableEq, Repr

/-- One row of the `weekly_top5` table, unique on `(week, rank)`. -/
structure SnapRow where
  week : String
  rank : Nat
  gifter : String
  total : Nat
  createdAt : String
deriving DecidableEq, Repr

/-- The persistent store: the three SQLite tables created by `init_db`. -/
structure DB where
  gifts : List GiftRow
  weekly : List SnapRow
  meta : List (String × String)
deriving DecidableEq, Repr

/-- `meta_get(con, key, default="")`: look up `k` in the `meta` table. -/
def meta_get (db : DB) (k : String) : String :=
  match db.meta.find? (fun p => p.1 = k) with
  | some p => p.2
  | none => ""

/-- `meta_set(con, key, value)`: SQLite upsert on the primary key `k`. -/
def meta_set (db : DB) (k v : String) : DB :=
  if db.meta.any (fun p => p.1 = k) then
    { db with meta := db.meta.map (fun p => if p.1 = k then (k, v) else p) }
  else
    { db with meta := db.meta ++ [(k, v)] }

/-- Whether some row of `gifts` already has this `event_key`
(the UNIQUE constraint consulted by `INSERT OR IGNORE`). -/
def hasKey (db : DB) (k : EventKey) : Bool :=
  db.gifts.any (fun r => r.key = k)

/-- Number of `gifts` rows carrying a given `event_key`. -/
def countKey (db : DB) (k : EventKey) : Nat :=
  db.gifts.countP (fun r => decide (r.key = k))

/-- The `on_gift` handler after field extraction: compute the dedup key,
`INSERT OR IGNORE` into `gifts`, and report whether a row was newly
created (`cur.rowcount == 1`). -/
def on_gift (db : DB) (week user gname : String) (diamonds amount ts : Nat) :
    DB × Bool :=
  let k := make_event_key week user gname diamonds amount ts
  if hasKey db k then
    (db, false)
  else
    ({ db with gifts := db.gifts ++ [⟨k, week, user, gname, amount, diamonds, ts⟩] },
     true)

/-- Monetary contribution of one stored row: `diamonds * amount`. -/
def contrib (r : GiftRow) : Nat := r.diamonds * r.amount

/-- Sum of contributions of gifter `g` over a list of rows
(the SQL `SUM(diamonds * amount)` for one `GROUP BY` group). -/
def sumContrib (g : String) (l : List GiftRow) : Nat :=
  ((l.filter (fun s => s.gifter = g)).map contrib).sum

/-- The rows of the `gifts` table for one week (`WHERE week_id=?`). -/
def weekRows (db : DB) (week : String) : List GiftRow :=
  db.gifts.filter (fun r => r.week = week)

/-- Worker for `aggregate`: emit one `(gifter, total)` pair at each
gifter's first occurrence, skipping gifters already `seen`. -/
def aggAux (seen : List String) : List GiftRow → List (String × Nat)
  | [] => []
  | r :: rs =>
    if r.gifter ∈ seen then aggAux seen rs
    else (r.gifter, contrib r + sumContrib r.gifter rs) :: aggAux (r.gifter :: seen) rs

/-- The `GROUP BY gifter_username` step: one `(gifter, total)` pair per
distinct gifter, in first-occurrence (insertion) order. -/
def aggregate (l : List GiftRow) : List (String × Nat) :=
  aggAux [] l

/-- Stable descending insertion (by total): the new element goes in front
of the first element whose total is not larger. -/
def insertDesc (x : String × Nat) : List (String × Nat) → List (String × Nat)
  | [] => [x]
  | y :: ys => if y.2 ≤ x.2 then x :: y :: ys else y :: insertDesc x ys

/-- Stable descending sort by total (`ORDER BY 2 DESC`). -/
def sortDesc : List (String × Nat) → List (String × Nat)
  | [] => []
  | x :: xs => insertDesc x (sortDesc xs)

/-- `top5_week(con, week_id)`: group the week's rows by gifter, sum
`diamonds * amount`, order by total descending, `LIMIT 5`.  Caveat: the
source query gives no guarantee on the relative order of groups with equal
totals (SQLite leaves the order of rows with equal `ORDER BY` keys
undefined); this embedding must fix one order and uses first-occurrence
grouping with a stable sort.  No theorem below depends on which order is
chosen for ties: the symbolic ones compare applications of this same
function or count posts, and every concrete store used has pairwise
distinct totals. -/
def top5_week (db : DB) (week : String) : List (String × Nat) :=
  (sortDesc (aggregate (weekRows db week))).take 5

/-- The `enumerate(rows, 1)` of `finalize_week`: attach ranks
`start, start+1, ...` to the top-5 pairs, as `weekly_top5` rows. -/
def withRanks (week now : String) (start : Nat) :
    List (String × Nat) → List SnapRow
  | [] => []
  | (u, t) :: rest => ⟨week, start, u, t, now⟩ :: withRanks week now (start + 1) rest

/-- One `INSERT OR IGNORE INTO weekly_top5` statement: skipped when a row
with the same `(week_id, rank)` already exists. -/
def insertSnap (weekly : List SnapRow) (r : SnapRow) : List SnapRow :=
  if weekly.any (fun s => s.week = r.week ∧ s.rank = r.rank) then weekly
  else weekly ++ [r]

/-- `finalize_week(con, week_id)`: compute `top5_week` and insert-or-ignore
one `weekly_top5` row per rank, `now` being the `created_at_utc` value. -/
def finalize_week (db : DB) (week now : String) : DB :=
  { db with weekly := (withRanks week now 1 (top5_week db week)).foldl insertSnap db.weekly }

/-- Ascending insertion by rank (used only by `finalizedTopSpec`). -/
def insertRankAsc (x : SnapRow) : List SnapRow → List SnapRow
  | [] => [x]
  | y :: ys => if x.rank ≤ y.rank then x :: y :: ys else y :: insertRankAsc x ys

/-- Ascending sort by rank (used only by `finalizedTopSpec`). -/
def sortRankAsc : List SnapRow → List SnapRow
  | [] => []
  | x :: xs => insertRankAsc x (sortRankAsc xs)

/-- Modelled from the spec: `finalized_top_n(period_id)` "reads frozen
`PeriodSnapshotEntry` rows instead, ordered by `rank`".  The Python code
has no such function — the final post is built from `top5_week` — so this
definition follows the spec's words and exists only to compare the claimed
read path with the code's actual one. -/
def finalizedTopSpec (db : DB) (week : String) : List (String × Nat) :=
  (sortRankAsc (db.weekly.filter (fun s => s.week = week))).map
    (fun s => (s.gifter, s.total))

/-- Schedule configuration: the four env-derived trigger times
(`DAILY_POST_HOUR/MINUTE`, `SUNDAY_FINAL_HOUR/MINUTE`). -/
structure Cfg where
  dailyHour : Nat
  dailyMinute : Nat
  finalHour : Nat
  finalMinute : Nat
deriving DecidableEq, Repr

/-- A successful Discord post, recorded with the rows it rendered. -/
inductive Post where
  | daily (date : String) (rows : List (String × Nat))
  | final (week : String) (rows : List (String × Nat))
deriving DecidableEq, Repr

/-- One wake of `schedule_loop`: the local-clock readings it takes, plus
the sink's behaviour (`dailyOk` / `finalOk`: whether `discord_post` would
return a status < 300 for the daily resp. final post this wake). -/
structure Wake where
  date : String
  weekday : Nat
  hour : Nat
  minute : Nat
  weekId : String
  ts : String
  dailyOk : Bool
  finalOk : Bool
deriving DecidableEq, Repr

/-- Result of one schedule-loop iteration: the database after its commits,
the posts that were delivered, and whether an exception escaped
(`err = true` means the iteration raised and the loop is dead). -/
structure CycleResult where
  db : DB
  posts : List Post
  err : Bool
deriving DecidableEq, Repr

/-- The daily ("00:00 Zwischenstand") block of the `schedule_loop` body:
post when the local time matches the daily trigger and today's date is not
the stored `last_daily` marker; a failed `discord_post` raises before
`meta_set`, ending the iteration with `err = true`. -/
def daily_step (cfg : Cfg) (db : DB) (w : Wake) : CycleResult :=
  if w.hour = cfg.dailyHour ∧ w.minute = cfg.dailyMinute then
    if meta_get db "last_daily" ≠ w.date then
      if w.dailyOk then
        ⟨meta_set db "last_daily" w.date,
         [Post.daily w.date (top5_week db w.weekId)], false⟩
      else ⟨db, [], true⟩
    else ⟨db, [], false⟩
  else ⟨db, [], false⟩

/-- The final ("Sonntag 23:59") block of the `schedule_loop` body, run on
the state `s` left by the daily block: when Sunday matches the final
trigger and the period differs from `last_final`, finalize the week (a
commit), then post; only a successful post persists the final marker. -/
def final_step (cfg : Cfg) (s : CycleResult) (w : Wake) : CycleResult :=
  if w.weekday = 7 ∧ w.hour = cfg.finalHour ∧ w.minute = cfg.finalMinute then
    if meta_get s.db "last_final" ≠ w.weekId then
      let db2 := finalize_week s.db w.weekId w.ts
      if w.finalOk then
        ⟨meta_set db2 "last_final" w.weekId,
         s.posts ++ [Post.final w.weekId (top5_week db2 w.weekId)], false⟩
      else ⟨db2, s.posts, true⟩
    else s
  else s

/-- One iteration of the `while True` body of `schedule_loop`: the daily
trigger, then (if no exception escaped) the final trigger. -/
def schedule_cycle (cfg : Cfg) (db : DB) (w : Wake) : CycleResult :=
  let s := daily_step cfg db w
  if s.err then s else final_step cfg s w

/-- The `schedule_loop` over a finite list of wakes: iterations run in
order until one raises, at which point the loop terminates (there is no
try/except inside the loop body). -/
def schedule_loop (cfg : Cfg) (db : DB) : List Wake → CycleResult
  | [] => ⟨db, [], false⟩
  | w :: ws =>
    let r := schedule_cycle cfg db w
    if r.err then ⟨r.db, r.posts, true⟩
    else
      let rest := schedule_loop cfg r.db ws
      ⟨rest.db, r.posts ++ rest.posts, rest.err⟩

/-- Whether a post is the final post for week `p`. -/
def isFinalFor (p : String) : Post → Bool
  | Post.final q _ => q = p
  | Post.daily _ _ => false

/-- Number of final posts for week `p` among a list of delivered posts. -/
def countFinal (p : String) (posts : List Post) : Nat :=
  posts.countP (isFinalFor p)

/-- Whether `needle` is a prefix of `hay` (character lists). -/
def matchesAt : List Char → List Char → Bool
  | [], _ => true
  | _ :: _, [] => false
  | a :: as, b :: bs => a = b && matchesAt as bs

/-- Whether `needle` occurs as a contiguous substring of `hay`
(character lists); models Python's `needle in hay`. -/
def subOccurs : List Char → List Char → Bool
  | needle, [] => needle.isEmpty
  | needle, c :: rest => matchesAt needle (c :: rest) || subOccurs needle rest

/-- Python's `needle in hay` on strings. -/
def strContains (hay needle : String) : Bool :=
  subOccurs needle.data hay.data

/-- Python's `msg.lower()` (the error texts classified by `connect_loop`
are ASCII, so per-character ASCII lowering is faithful). -/
def lowerStr (s : String) : String :=
  String.mk (s.data.map Char.toLower)

/-- The backoff chosen by the `except` branch of `connect_loop` for an
error with text `msg`, given the two env-derived retry intervals and the
previous backoff value (`max_backoff = 600` is hardcoded in the source). -/
def classify_backoff (offlineRetry errorRetry prev : Nat) (msg : String) : Nat :=
  let low := lowerStr msg
  if strContains low "offline" then offlineRetry
  else if strContains low "sign" || strContains low "504" ||
      strContains low "status code 500" then
    min 600 (max 60 (prev * 2))
  else if strContains low "one connection" then 10
  else errorRetry

/-- Right-padding with spaces to width `w` (Python `f"{s:<w}"`). -/
def padRightL (s : List Char) (w : Nat) : List Char :=
  s ++ List.replicate (w - s.length) ' '

/-- Left-padding with spaces to width `w` (Python `f"{s:>w}"`). -/
def padLeftL (s : List Char) (w : Nat) : List Char :=
  List.replicate (w - s.length) ' ' ++ s

/-- Decimal rendering of a natural number as a character list. -/
def natChars (n : Nat) : List Char := (toString n).data

/-- Python's `(u or 'unknown')` for a string-valued `u`. -/
def orUnknown (u : List Char) : List Char :=
  if u = [] then "unknown".data else u

/-- The gifter column of one table row: the name truncated to 24
characters (`[:24]`), then left-justified in a 24-wide field (`:<24`). -/
def nameCell (u : List Char) : List Char :=
  padRightL ((orUnknown u).take 24) 24

/-- One table row: `f"{i:<4} {(u or 'unknown')[:24]:<24} {t:>8}"`. -/
def rowLine (i : Nat) (u : List Char) (t : Nat) : List Char :=
  padRightL (natChars i) 4 ++ (' ' :: nameCell u) ++ (' ' :: padLeftL (natChars t) 8)

/-- The code-block delimiter line. -/
def fenceL : List Char := "```".data

/-- The header row `f"{'Rang':<4} {'User':<24} {'Coins':>8}"`. -/
def headerLine : List Char :=
  padRightL "Rang".data 4 ++ (' ' :: padRightL "User".data 24) ++
    (' ' :: padLeftL "Coins".data 8)

/-- The dash row `f"{'-'*4} {'-'*24} {'-'*8}"`. -/
def dashLine : List Char :=
  List.replicate 4 '-' ++ (' ' :: List.replicate 24 '-') ++
    (' ' :: List.replicate 8 '-')

/-- The table rows for `enumerate(rows, 1)`, ranks starting at `i`. -/
def rowLines (i : Nat) : List (List Char × Nat) → List (List Char)
  | [] => []
  | (u, t) :: rest => rowLine i u t :: rowLines (i + 1) rest

/-- Python's `"\\n".join(lines)`. -/
def joinLines : List (List Char) → List Char
  | [] => []
  | [l] => l
  | l :: ls => l ++ '\n' :: joinLines ls

/-- The full rendering of `format_message` before the final truncation:
title, blank line, opening fence, header, dashes, one line per row,
closing fence, joined by newlines. -/
def renderAll (title : List Char) (rows : List (List Char × Nat)) : List Char :=
  joinLines ([title, [], fenceL, headerLine, dashLine] ++ rowLines 1 rows ++ [fenceL])

/-- `format_message(title, rows)`: the rendering truncated to 1990
characters (`[:1990]`). -/
def format_message (title : List Char) (rows : List (List Char × Nat)) : List Char :=
  (renderAll title rows).take 1990

end Bot

namespace Bot

/-! ### Store lemmas -/

theorem meta_set_gifts (db : DB) (k v : String) :
    (meta_set db k v).gifts = db.gifts := by
  unfold meta_set; split <;> rfl

theorem meta_set_weekly (db : DB) (k v : String) :
    (meta_set db k v).weekly = db.weekly := by
  unfold meta_set; split <;> rfl

theorem find?_map_set_same (m : List (String × String)) (k v : String) :
    List.find? (fun p => p.1 = k) (m.map (fun p => if p.1 = k then (k, v) else p)) =
      (List.find? (fun p => p.1 = k) m).map (fun _ => (k, v)) := by
  induction m with
  | nil => rfl
  | cons a m ih =>
    by_cases h : a.1 = k
    · simp only [List.map_cons, if_pos h]
      rw [List.find?_cons_of_pos _ (by simp), List.find?_cons_of_pos _ (by simp [h])]
      rfl
    · simp only [List.map_cons, if_neg h]
      rw [List.find?_cons_of_neg _ (by simp [h]), List.find?_cons_of_neg _ (by simp [h])]
      exact ih

theorem find?_map_set_other (m : List (String × String)) (k k' v : String)
    (h : k' ≠ k) :
    List.find? (fun p => p.1 = k) (m.map (fun p => if p.1 = k' then (k', v) else p)) =
      List.find? (fun p => p.1 = k) m := by
  induction m with
  | nil => rfl
  | cons a m ih =>
    by_cases ha : a.1 = k'
    · have hak : ¬ a.1 = k := by rw [ha]; exact h
      simp only [List.map_cons, if_pos ha]
      rw [List.find?_cons_of_neg _ (by simp [h]), List.find?_cons_of_neg _ (by simp [hak])]
      exact ih
    · by_cases hak : a.1 = k
      · simp only [List.map_cons, if_neg ha]
        rw [List.find?_cons_of_pos _ (by simp [hak]), List.find?_cons_of_pos _ (by simp [hak])]
      · simp only [List.map_cons, if_neg ha]
        rw [List.find?_cons_of_neg _ (by simp [hak]), List.find?_cons_of_neg _ (by simp [hak])]
        exact ih

theorem meta_get_set_same (db : DB) (k v : String) :
    meta_get (meta_set db k v) k = v := by
  unfold meta_get meta_set
  by_cases hany : (db.meta.any fun p => decide (p.1 = k)) = true
  · rw [if_pos hany]
    dsimp only
    rw [find?_map_set_same]
    have hsome : (List.find? (fun p => p.1 = k) db.meta).isSome := by
      rw [List.find?_isSome]
      simpa using List.any_eq_true.mp hany
    obtain ⟨y, hy⟩ := Option.isSome_iff_exists.mp hsome
    rw [hy]
    rfl
  · rw [if_neg hany]
    dsimp only
    rw [List.find?_append]
    have hnone : List.find? (fun p => p.1 = k) db.meta = none := by
      rw [List.find?_eq_none]
      intro x hx
      have := List.any_eq_false.mp (Bool.of_not_eq_true hany) x hx
      simpa using this
    rw [hnone, List.find?_cons_of_pos _ (by simp)]
    rfl

theorem meta_get_set_other (db : DB) (k k' v : String) (h : k' ≠ k) :
    meta_get (meta_set db k' v) k = meta_get db k := by
  unfold meta_get meta_set
  by_cases hany : (db.meta.any fun p => decide (p.1 = k')) = true
  · rw [if_pos hany]
    dsimp only
    rw [find?_map_set_other _ _ _ _ h]
  · rw [if_neg hany]
    dsimp only
    rw [List.find?_append, List.find?_cons_of_neg _ (by simp [h]), List.find?_nil]
    cases List.find? (fun p => p.1 = k) db.meta <;> rfl

/-! ### Ingestion lemmas -/

theorem hasKey_false_countKey (db : DB) (k : EventKey) (h : hasKey db k = false) :
    countKey db k = 0 := by
  unfold countKey
  rw [List.countP_eq_zero]
  intro r hr
  unfold hasKey at h
  have := List.any_eq_false.mp h r hr
  simpa using this

theorem on_gift_hit (db : DB) (week user gname : String) (diamonds amount ts : Nat)
    (h : hasKey db (make_event_key week user gname diamonds amount ts) = true) :
    on_gift db week user gname diamonds amount ts = (db, false) := by
  simp [on_gift, h]

theorem on_gift_miss (db : DB) (week user gname : String) (diamonds amount ts : Nat)
    (h : hasKey db (make_event_key week user gname diamonds amount ts) = false) :
    on_gift db week user gname diamonds amount ts =
      ({ db with gifts := db.gifts ++
          [⟨make_event_key week user gname diamonds amount ts,
            week, user, gname, amount, diamonds, ts⟩] }, true) := by
  simp [on_gift, h]

theorem hasKey_append_single (db : DB) (row : GiftRow) (k : EventKey) :
    hasKey { db with gifts := db.gifts ++ [row] } k =
      (hasKey db k || decide (row.key = k)) := by
  simp [hasKey, List.any_append]

end Bot

namespace Bot

/-- C4: two gift events with identical period, gifter, gift name, value and
quantity whose timestamps fall in the same 2-second bucket get the same
dedup key; ingesting both stores exactly one row with that key, only the
first ingest reports a newly created row, and the second ingest leaves the
store unchanged (conflict-ignore on the key). -/
theorem ingest_dedup_same_bucket
    (db : DB) (week user gname : String) (diamonds amount ts1 ts2 : Nat)
    (hb : ts1 / 2 = ts2 / 2)
    (hfresh : hasKey db (make_event_key week user gname diamonds amount ts1) = false) :
    make_event_key week user gname diamonds amount ts1 =
        make_event_key week user gname diamonds amount ts2 ∧
    (on_gift db week user gname diamonds amount ts1).2 = true ∧
    (on_gift (on_gift db week user gname diamonds amount ts1).1
        week user gname diamonds amount ts2).2 = false ∧
    countKey
      ((on_gift (on_gift db week user gname diamonds amount ts1).1
          week user gname diamonds amount ts2).1)
      (make_event_key week user gname diamonds amount ts1) = 1 ∧
    (on_gift (on_gift db week user gname diamonds amount ts1).1
        week user gname diamonds amount ts2).1 =
      (on_gift db week user gname diamonds amount ts1).1 := by
  have hk : make_event_key week user gname diamonds amount ts1 =
      make_event_key week user gname diamonds amount ts2 := by
    unfold make_event_key; rw [hb]
  have h1 := on_gift_miss db week user gname diamonds amount ts1 hfresh
  have hkey1 : hasKey (on_gift db week user gname diamonds amount ts1).1
      (make_event_key week user gname diamonds amount ts2) = true := by
    rw [h1, hasKey_append_single, ← hk]
    simp
  have h2 := on_gift_hit (on_gift db week user gname diamonds amount ts1).1
    week user gname diamonds amount ts2 hkey1
  refine ⟨hk, by rw [h1], by rw [h2], ?_, by rw [h2]⟩
  rw [h2, h1]
  unfold countKey
  rw [List.countP_append]
  have h0 : countKey db (make_event_key week user gname diamonds amount ts1) = 0 :=
    hasKey_false_countKey db _ hfresh
  unfold countKey at h0
  rw [h0]
  simp

/-- Witness for `ingest_dedup_same_bucket` at concrete values. -/
theorem ingest_dedup_same_bucket_witness :
    (5 : Nat) / 2 = 4 / 2 ∧
    (on_gift ⟨[], [], []⟩ "2024-W05" "alice" "rose" 1 1 5).2 = true ∧
    (on_gift (on_gift ⟨[], [], []⟩ "2024-W05" "alice" "rose" 1 1 5).1
        "2024-W05" "alice" "rose" 1 1 4).2 = false :=
  ⟨by decide,
   (ingest_dedup_same_bucket ⟨[], [], []⟩ "2024-W05" "alice" "rose" 1 1 5 4
      (by decide) (by decide)).2.1,
   (ingest_dedup_same_bucket ⟨[], [], []⟩ "2024-W05" "alice" "rose" 1 1 5 4
      (by decide) (by decide)).2.2.1⟩

/-- C5: two gift events whose timestamps fall in different 2-second buckets
get different dedup keys, and ingesting both (all other fields identical,
neither key present yet) stores two distinct rows. -/
theorem ingest_distinct_buckets
    (db : DB) (week user gname : String) (diamonds amount ts1 ts2 : Nat)
    (hb : ts1 / 2 ≠ ts2 / 2)
    (h1 : hasKey db (make_event_key week user gname diamonds amount ts1) = false)
    (h2 : hasKey db (make_event_key week user gname diamonds amount ts2) = false) :
    make_event_key week user gname diamonds amount ts1 ≠
        make_event_key week user gname diamonds amount ts2 ∧
    (on_gift db week user gname diamonds amount ts1).2 = true ∧
    (on_gift (on_gift db week user gname diamonds amount ts1).1
        week user gname diamonds amount ts2).2 = true ∧
    (on_gift (on_gift db week user gname diamonds amount ts1).1
        week user gname diamonds amount ts2).1.gifts =
      db.gifts ++
        [⟨make_event_key week user gname diamonds amount ts1,
          week, user, gname, amount, diamonds, ts1⟩,
         ⟨make_event_key week user gname diamonds amount ts2,
          week, user, gname, amount, diamonds, ts2⟩] := by
  have hk : make_event_key week user gname diamonds amount ts1 ≠
      make_event_key week user gname diamonds amount ts2 := by
    unfold make_event_key
    intro hc
    exact hb (by injection hc)
  have hg1 := on_gift_miss db week user gname diamonds amount ts1 h1
  have hkey2 : hasKey (on_gift db week user gname diamonds amount ts1).1
      (make_event_key week user gname diamonds amount ts2) = false := by
    rw [hg1, hasKey_append_single, h2]
    simp
    exact fun hc => hk hc
  have hg2 := on_gift_miss (on_gift db week user gname diamonds amount ts1).1
    week user gname diamonds amount ts2 hkey2
  refine ⟨hk, by rw [hg1], by rw [hg2], ?_⟩
  rw [hg2, hg1]
  simp [List.append_assoc]

/-- Witness for `ingest_distinct_buckets` at concrete values. -/
theorem ingest_distinct_buckets_witness :
    (on_gift (on_gift ⟨[], [], []⟩ "2024-W05" "alice" "rose" 1 1 5).1
        "2024-W05" "alice" "rose" 1 1 7).2 = true :=
  (ingest_distinct_buckets ⟨[], [], []⟩ "2024-W05" "alice" "rose" 1 1 5 7
    (by decide) (by decide) (by decide)).2.2.1

end Bot

namespace Bot

/-! ### Aggregation lemmas -/

theorem sumContrib_cons_self (r : GiftRow) (rs : List GiftRow) :
    sumContrib r.gifter (r :: rs) = contrib r + sumContrib r.gifter rs := by
  unfold sumContrib
  rw [List.filter_cons_of_pos (by simp)]
  simp

theorem sumContrib_cons_ne (g : String) (r : GiftRow) (rs : List GiftRow)
    (h : ¬ r.gifter = g) :
    sumContrib g (r :: rs) = sumContrib g rs := by
  unfold sumContrib
  rw [List.filter_cons_of_neg (by simp [h])]

theorem aggAux_total (l : List GiftRow) :
    ∀ (seen : List String), ∀ p ∈ aggAux seen l,
      p.2 = sumContrib p.1 l ∧ p.1 ∉ seen := by
  induction l with
  | nil => intro seen p hp; simp [aggAux] at hp
  | cons r rs ih =>
    intro seen p hp
    unfold aggAux at hp
    by_cases hseen : r.gifter ∈ seen
    · rw [if_pos hseen] at hp
      obtain ⟨ht, hns⟩ := ih seen p hp
      have hne : ¬ r.gifter = p.1 := fun hc => hns (hc ▸ hseen)
      exact ⟨by rw [sumContrib_cons_ne p.1 r rs hne]; exact ht, hns⟩
    · rw [if_neg hseen] at hp
      rcases List.mem_cons.mp hp with h | h
      · subst h
        refine ⟨?_, hseen⟩
        dsimp only
        rw [← sumContrib_cons_self]
      · obtain ⟨ht, hns⟩ := ih (r.gifter :: seen) p h
        have hne : ¬ r.gifter = p.1 := fun hc =>
          hns (hc ▸ List.mem_cons_self r.gifter seen)
        refine ⟨by rw [sumContrib_cons_ne p.1 r rs hne]; exact ht, ?_⟩
        exact fun hc => hns (List.mem_cons_of_mem _ hc)

theorem aggregate_total (l : List GiftRow) :
    ∀ p ∈ aggregate l, p.2 = sumContrib p.1 l := by
  intro p hp
  exact (aggAux_total l [] p hp).1

/-! ### Sorting lemmas -/

theorem mem_insertDesc (x a : String × Nat) (l : List (String × Nat)) :
    a ∈ insertDesc x l ↔ a = x ∨ a ∈ l := by
  induction l with
  | nil => simp [insertDesc]
  | cons y ys ih =>
    unfold insertDesc
    by_cases h : y.2 ≤ x.2
    · simp [h]
    · simp only [if_neg h, List.mem_cons, ih]
      tauto

theorem pairwise_insertDesc (x : String × Nat) (l : List (String × Nat))
    (hl : List.Pairwise (fun a b => b.2 ≤ a.2) l) :
    List.Pairwise (fun a b => b.2 ≤ a.2) (insertDesc x l) := by
  induction l with
  | nil => simp [insertDesc]
  | cons y ys ih =>
    unfold insertDesc
    rcases List.pairwise_cons.mp hl with ⟨hy, hys⟩
    by_cases h : y.2 ≤ x.2
    · rw [if_pos h]
      exact List.pairwise_cons.mpr
        ⟨fun z hz => by
          rcases List.mem_cons.mp hz with rfl | hz'
          · exact h
          · exact Nat.le_trans (hy z hz') h, hl⟩
    · rw [if_neg h]
      refine List.pairwise_cons.mpr ⟨fun z hz => ?_, ih hys⟩
      rcases (mem_insertDesc x z ys).mp hz with rfl | hz'
      · exact Nat.le_of_lt (Nat.lt_of_not_le h)
      · exact hy z hz'

theorem mem_sortDesc (a : String × Nat) (l : List (String × Nat)) :
    a ∈ sortDesc l ↔ a ∈ l := by
  induction l with
  | nil => simp [sortDesc]
  | cons x xs ih =>
    unfold sortDesc
    rw [mem_insertDesc, ih]
    simp

theorem sortDesc_pairwise (l : List (String × Nat)) :
    List.Pairwise (fun a b => b.2 ≤ a.2) (sortDesc l) := by
  induction l with
  | nil => simp [sortDesc]
  | cons x xs ih => exact pairwise_insertDesc x (sortDesc xs) ih

theorem filter_insertDesc_eq (x : String × Nat) (l : List (String × Nat))
    (t : Nat) (hx : x.2 = t) :
    (insertDesc x l).filter (fun p => p.2 = t) =
      x :: l.filter (fun p => p.2 = t) := by
  induction l with
  | nil => simp [insertDesc, hx]
  | cons y ys ih =>
    unfold insertDesc
    by_cases h : y.2 ≤ x.2
    · rw [if_pos h, List.filter_cons_of_pos (by simp [hx])]
    · rw [if_neg h]
      have hyt : ¬ y.2 = t := by
        rw [← hx]
        intro hc
        exact h (Nat.le_of_eq hc)
      rw [List.filter_cons_of_neg (by simp [hyt]), ih,
        List.filter_cons_of_neg (by simp [hyt])]

theorem filter_insertDesc_ne (x : String × Nat) (l : List (String × Nat))
    (t : Nat) (hx : ¬ x.2 = t) :
    (insertDesc x l).filter (fun p => p.2 = t) =
      l.filter (fun p => p.2 = t) := by
  induction l with
  | nil => simp [insertDesc, hx]
  | cons y ys ih =>
    unfold insertDesc
    by_cases h : y.2 ≤ x.2
    · rw [if_pos h, List.filter_cons_of_neg (by simp [hx])]
    · rw [if_neg h]
      by_cases hyt : y.2 = t
      · rw [List.filter_cons_of_pos (by simp [hyt]),
          List.filter_cons_of_pos (by simp [hyt]), ih]
      · rw [List.filter_cons_of_neg (by simp [hyt]),
          List.filter_cons_of_neg (by simp [hyt]), ih]

theorem sortDesc_filter (l : List (String × Nat)) (t : Nat) :
    (sortDesc l).filter (fun p => p.2 = t) = l.filter (fun p => p.2 = t) := by
  induction l with
  | nil => simp [sortDesc]
  | cons x xs ih =>
    unfold sortDesc
    by_cases hx : x.2 = t
    · rw [filter_insertDesc_eq x (sortDesc xs) t hx, ih,
        List.filter_cons_of_pos (by simp [hx])]
    · rw [filter_insertDesc_ne x (sortDesc xs) t hx, ih,
        List.filter_cons_of_neg (by simp [hx])]

end Bot

namespace Bot

/-- The example scenario of the spec: three alice roses (value 1,
quantity 1) in distinct 2-second buckets and one bob rose (value 1,
quantity 5), all in week `2024-W05`, ingested through `on_gift` into an
empty store. -/
def exampleDB : DB :=
  (on_gift
    (on_gift
      (on_gift
        (on_gift ⟨[], [], []⟩ "2024-W05" "alice" "rose" 1 1 0).1
        "2024-W05" "alice" "rose" 1 1 2).1
      "2024-W05" "alice" "rose" 1 1 4).1
    "2024-W05" "bob" "rose" 1 5 6).1

end Bot

namespace Bot

/-- C7: the reconnect backoff is chosen by case-insensitive substring
classification of the error text, in priority order: "offline" gives the
base offline-retry interval (and wins even when "504" also occurs);
"sign"/"504"/"status code 500" doubles the previous backoff with floor 60
and cap 600; "one connection" gives 10; anything else gives the generic
error-retry interval. -/
theorem classify_backoff_spec (offlineRetry errorRetry prev : Nat) :
    classify_backoff offlineRetry errorRetry prev "Offline" = offlineRetry ∧
    classify_backoff offlineRetry errorRetry prev "streamer is OFFLINE" = offlineRetry ∧
    classify_backoff offlineRetry errorRetry prev "ERR 504 timeout" =
      min 600 (max 60 (prev * 2)) ∧
    classify_backoff offlineRetry errorRetry prev "Sign server error" =
      min 600 (max 60 (prev * 2)) ∧
    classify_backoff offlineRetry errorRetry prev "got status code 500" =
      min 600 (max 60 (prev * 2)) ∧
    classify_backoff offlineRetry errorRetry prev "One Connection reached" = 10 ∧
    classify_backoff offlineRetry errorRetry prev "disk full" = errorRetry ∧
    classify_backoff offlineRetry errorRetry prev "OFFLINE after 504" = offlineRetry :=
  ⟨rfl, rfl, rfl, rfl, rfl, rfl, rfl, rfl⟩

end Bot

namespace Bot

/-! ### Formatter lemmas -/

theorem joinLines_cons_of_ne (a : List Char) (rest : List (List Char))
    (h : rest ≠ []) :
    joinLines (a :: rest) = a ++ '\n' :: joinLines rest := by
  cases rest with
  | nil => exact absurd rfl h
  | cons b bs => rfl

theorem joinLines_ends_with_last (ls : List (List Char)) (x : List Char) :
    List.IsSuffix x (joinLines (ls ++ [x])) := by
  induction ls with
  | nil => exact List.suffix_refl x
  | cons a ls ih =>
    rw [List.cons_append, joinLines_cons_of_ne a (ls ++ [x]) (by simp)]
    obtain ⟨p, hp⟩ := ih
    exact ⟨a ++ '\n' :: p, by rw [← hp]; simp⟩

theorem padRightL_length (s : List Char) (w : Nat) (h : s.length ≤ w) :
    (padRightL s w).length = w := by
  simp [padRightL]
  omega

/-- C9 (amended): `format_message` is a pure function whose output never
exceeds 1990 characters; each gifter name is truncated to at most 24
characters and padded to an exactly 24-wide column (the total is
right-aligned after it in the row); and whenever the untruncated rendering
fits in 1990 characters, the output equals it and ends with the closing
code fence.  (The final `[:1990]` can cut the fence off — see the
counterexample theorem.) -/
theorem format_message_spec :
    ∀ (title : List Char) (rows : List (List Char × Nat)),
      (format_message title rows).length ≤ 1990 ∧
      (∀ u, ((orUnknown u).take 24).length ≤ 24 ∧ (nameCell u).length = 24) ∧
      ((renderAll title rows).length ≤ 1990 →
        format_message title rows = renderAll title rows ∧
        List.IsSuffix fenceL (format_message title rows)) := by
  intro title rows
  refine ⟨?_, ?_, ?_⟩
  · unfold format_message
    rw [List.length_take]
    exact Nat.min_le_left 1990 _
  · intro u
    have h24 : ((orUnknown u).take 24).length ≤ 24 := by
      rw [List.length_take]
      exact Nat.min_le_left 24 _
    exact ⟨h24, padRightL_length _ 24 h24⟩
  · intro hfits
    have heq : format_message title rows = renderAll title rows := by
      unfold format_message
      exact List.take_of_length_le hfits
    refine ⟨heq, ?_⟩
    rw [heq]
    unfold renderAll
    exact joinLines_ends_with_last _ fenceL

/-- Witness for `format_message_spec` at a concrete title and row list. -/
theorem format_message_spec_witness :
    (format_message ("hi".data) [("bob".data, 5)]).length ≤ 1990 ∧
    List.IsSuffix fenceL (format_message ("hi".data) [("bob".data, 5)]) :=
  ⟨(format_message_spec ("hi".data) [("bob".data, 5)]).1,
   ((format_message_spec ("hi".data) [("bob".data, 5)]).2.2 (by decide)).2⟩

theorem subOccurs_fence_replicate (n : Nat) :
    subOccurs fenceL (List.replicate n 'a') = false := by
  induction n with
  | zero => decide
  | succ n ih =>
    rw [List.replicate_succ]
    unfold subOccurs
    have hm : matchesAt fenceL ('a' :: List.replicate n 'a') = false := rfl
    rw [hm, ih]
    rfl

/-- C9 counterexample: with a 1991-character title, the `[:1990]`
truncation removes the code fences entirely, so the output is not enclosed
in a code-block delimiter (it contains no fence at all). -/
theorem format_message_fence_cut :
    format_message (List.replicate 1991 'a') [] = List.replicate 1990 'a' ∧
    subOccurs fenceL (format_message (List.replicate 1991 'a') []) = false := by
  have h1 : format_message (List.replicate 1991 'a') [] =
      List.replicate 1990 'a' := by
    show (joinLines (List.replicate 1991 'a' ::
      [[], fenceL, headerLine, dashLine, fenceL])).take 1990 =
        List.replicate 1990 'a'
    rw [joinLines_cons_of_ne _ _ (by simp)]
    rw [List.take_append_eq_append_take, List.length_replicate,
      List.take_replicate]
    norm_num
  refine ⟨h1, ?_⟩
  rw [h1]
  exact subOccurs_fence_replicate 1990

end Bot

namespace Bot

/-! ### Finalization lemmas -/

theorem finalize_week_gifts (db : DB) (week t : String) :
    (finalize_week db week t).gifts = db.gifts := rfl

theorem finalize_week_meta (db : DB) (week t : String) :
    (finalize_week db week t).meta = db.meta := rfl

theorem top5_week_finalize (db : DB) (week t w' : String) :
    top5_week (finalize_week db week t) w' = top5_week db w' := rfl

theorem meta_get_finalize (db : DB) (week t k : String) :
    meta_get (finalize_week db week t) k = meta_get db k := rfl

theorem foldl_insertSnap_extends (rows : List SnapRow) :
    ∀ acc : List SnapRow, ∃ added,
      List.foldl insertSnap acc rows = acc ++ added ∧
      ∀ r ∈ added, ∀ s ∈ acc, ¬ (s.week = r.week ∧ s.rank = r.rank) := by
  induction rows with
  | nil => exact fun acc => ⟨[], by simp, by simp⟩
  | cons r rest ih =>
    intro acc
    rw [List.foldl_cons]
    by_cases hc : acc.any (fun s => s.week = r.week ∧ s.rank = r.rank) = true
    · have hskip : insertSnap acc r = acc := by unfold insertSnap; rw [if_pos hc]
      rw [hskip]
      exact ih acc
    · have hins : insertSnap acc r = acc ++ [r] := by unfold insertSnap; rw [if_neg hc]
      rw [hins]
      obtain ⟨added, heq, hnc⟩ := ih (acc ++ [r])
      refine ⟨r :: added, by rw [heq]; simp, ?_⟩
      intro x hx s hs
      rcases List.mem_cons.mp hx with rfl | hx'
      · have := List.any_eq_false.mp (Bool.of_not_eq_true hc) s hs
        simpa using this
      · exact hnc x hx' s (List.mem_append_left _ hs)

theorem foldl_insertSnap_conflict_present (rows : List SnapRow) :
    ∀ acc, ∀ r ∈ rows,
      (List.foldl insertSnap acc rows).any
        (fun s => s.week = r.week ∧ s.rank = r.rank) = true := by
  induction rows with
  | nil => intro acc r hr; simp at hr
  | cons r0 rest ih =>
    intro acc r hr
    rw [List.foldl_cons]
    rcases List.mem_cons.mp hr with heq0 | hr'
    · subst heq0
      obtain ⟨added, heq, _⟩ := foldl_insertSnap_extends rest (insertSnap acc r)
      rw [heq, List.any_append]
      have hbase : (insertSnap acc r).any
          (fun s => s.week = r.week ∧ s.rank = r.rank) = true := by
        unfold insertSnap
        by_cases hc : acc.any (fun s => s.week = r.week ∧ s.rank = r.rank) = true
        · rw [if_pos hc]; exact hc
        · rw [if_neg hc, List.any_append]
          simp
      rw [hbase]
      rfl
    · exact ih (insertSnap acc r0) r hr'

theorem foldl_insertSnap_all_conflict (rows : List SnapRow) :
    ∀ acc,
      (∀ r ∈ rows, acc.any (fun s => s.week = r.week ∧ s.rank = r.rank) = true) →
      List.foldl insertSnap acc rows = acc := by
  induction rows with
  | nil => intro acc _; rfl
  | cons r rest ih =>
    intro acc h
    rw [List.foldl_cons]
    have hskip : insertSnap acc r = acc := by
      unfold insertSnap
      rw [if_pos (h r (List.mem_cons_self r rest))]
    rw [hskip]
    exact ih acc (fun x hx => h x (List.mem_cons_of_mem _ hx))

theorem foldl_insertSnap_fresh (rows : List SnapRow) :
    ∀ acc,
      (∀ r ∈ rows, ∀ s ∈ acc, ¬ (s.week = r.week ∧ s.rank = r.rank)) →
      List.Pairwise (fun a b => ¬ (a.week = b.week ∧ a.rank = b.rank)) rows →
      List.foldl insertSnap acc rows = acc ++ rows := by
  induction rows with
  | nil => intro acc _ _; simp
  | cons r rest ih =>
    intro acc hacc hpw
    rw [List.foldl_cons]
    have hc : acc.any (fun s => s.week = r.week ∧ s.rank = r.rank) = false := by
      rw [List.any_eq_false]
      intro s hs
      simpa using hacc r (List.mem_cons_self r rest) s hs
    have hins : insertSnap acc r = acc ++ [r] := by
      unfold insertSnap
      rw [hc]
      simp
    rw [hins]
    rcases List.pairwise_cons.mp hpw with ⟨hr, hrest⟩
    rw [ih (acc ++ [r]) ?_ hrest]
    · simp
    · intro x hx s hs
      rcases List.mem_append.mp hs with hs' | hs'
      · exact hacc x (List.mem_cons_of_mem _ hx) s hs'
      · rw [List.mem_singleton.mp hs']
        exact hr x hx

theorem withRanks_week_rank (week t : String) (l : List (String × Nat)) :
    ∀ start, ∀ r ∈ withRanks week t start l, r.week = week ∧ start ≤ r.rank := by
  induction l with
  | nil => intro start r hr; simp [withRanks] at hr
  | cons p rest ih =>
    intro start r hr
    obtain ⟨u, v⟩ := p
    unfold withRanks at hr
    rcases List.mem_cons.mp hr with rfl | hr'
    · exact ⟨rfl, Nat.le_refl start⟩
    · obtain ⟨hw, hrk⟩ := ih (start + 1) r hr'
      exact ⟨hw, Nat.le_of_lt (Nat.lt_of_lt_of_le (Nat.lt_succ_self start) hrk)⟩

theorem withRanks_pairwise_lt (week t : String) (l : List (String × Nat)) :
    ∀ start, List.Pairwise (fun a b => a.rank < b.rank) (withRanks week t start l) := by
  induction l with
  | nil => intro start; simp [withRanks]
  | cons p rest ih =>
    intro start
    obtain ⟨u, v⟩ := p
    unfold withRanks
    refine List.pairwise_cons.mpr ⟨?_, ih (start + 1)⟩
    intro r hr
    exact Nat.lt_of_lt_of_le (Nat.lt_succ_self start)
      (withRanks_week_rank week t rest (start + 1) r hr).2

theorem withRanks_map (week t : String) (l : List (String × Nat)) :
    ∀ start, (withRanks week t start l).map (fun s => (s.gifter, s.total)) = l := by
  induction l with
  | nil => intro start; rfl
  | cons p rest ih =>
    intro start
    obtain ⟨u, v⟩ := p
    unfold withRanks
    rw [List.map_cons, ih (start + 1)]

theorem withRanks_same_keys (week t1 t2 : String) (l : List (String × Nat)) :
    ∀ start, ∀ r ∈ withRanks week t2 start l,
      ∃ r1 ∈ withRanks week t1 start l, r1.week = r.week ∧ r1.rank = r.rank := by
  induction l with
  | nil => intro start r hr; simp [withRanks] at hr
  | cons p rest ih =>
    intro start r hr
    obtain ⟨u, v⟩ := p
    unfold withRanks at hr ⊢
    rcases List.mem_cons.mp hr with rfl | hr'
    · exact ⟨⟨week, start, u, v, t1⟩, List.mem_cons_self _ _, rfl, rfl⟩
    · obtain ⟨r1, hr1, hk⟩ := ih (start + 1) r hr'
      exact ⟨r1, List.mem_cons_of_mem _ hr1, hk⟩

theorem insertRankAsc_of_le (x : SnapRow) (l : List SnapRow)
    (h : ∀ y ∈ l, x.rank ≤ y.rank) : insertRankAsc x l = x :: l := by
  cases l with
  | nil => rfl
  | cons y ys =>
    unfold insertRankAsc
    rw [if_pos (h y (List.mem_cons_self y ys))]

theorem sortRankAsc_sorted_eq (l : List SnapRow)
    (h : List.Pairwise (fun a b => a.rank ≤ b.rank) l) : sortRankAsc l = l := by
  induction l with
  | nil => rfl
  | cons x xs ih =>
    rcases List.pairwise_cons.mp h with ⟨hx, hxs⟩
    unfold sortRankAsc
    rw [ih hxs, insertRankAsc_of_le x xs hx]

end Bot

namespace Bot

/-- C3 (amended): `finalize_week` called twice in a row (no ingestion in
between) equals calling it once, and a finalize never overwrites existing
rows: the old `weekly_top5` rows survive unchanged as a prefix and every
newly inserted row has a `(week, rank)` key that no old row carries. -/
theorem finalize_week_idempotent (db : DB) (week t1 t2 : String) :
    finalize_week (finalize_week db week t1) week t2 = finalize_week db week t1 ∧
    ∃ added, (finalize_week db week t1).weekly = db.weekly ++ added ∧
      ∀ r ∈ added, ∀ s ∈ db.weekly, ¬ (s.week = r.week ∧ s.rank = r.rank) := by
  constructor
  · have hall : ∀ r ∈ withRanks week t2 1
        (top5_week (finalize_week db week t1) week),
        (finalize_week db week t1).weekly.any
          (fun s => s.week = r.week ∧ s.rank = r.rank) = true := by
      intro r hr
      rw [top5_week_finalize] at hr
      obtain ⟨r1, hr1, hw, hk⟩ :=
        withRanks_same_keys week t1 t2 (top5_week db week) 1 r hr
      have hpres := foldl_insertSnap_conflict_present
        (withRanks week t1 1 (top5_week db week)) db.weekly r1 hr1
      rw [← hw, ← hk]
      exact hpres
    have hfold := foldl_insertSnap_all_conflict
      (withRanks week t2 1 (top5_week (finalize_week db week t1) week))
      (finalize_week db week t1).weekly hall
    have hstep : finalize_week (finalize_week db week t1) week t2 =
        { finalize_week db week t1 with
            weekly := (withRanks week t2 1
              (top5_week (finalize_week db week t1) week)).foldl insertSnap
                (finalize_week db week t1).weekly } := rfl
    rw [hstep, hfold]
  · exact foldl_insertSnap_extends
      (withRanks week t1 1 (top5_week db week)) db.weekly

/-- Witness for `finalize_week_idempotent` at a concrete store. -/
theorem finalize_week_idempotent_witness :
    finalize_week (finalize_week exampleDB "2024-W05" "a") "2024-W05" "b" =
      finalize_week exampleDB "2024-W05" "a" :=
  (finalize_week_idempotent exampleDB "2024-W05" "a" "b").1

/-- Store for the finalize counterexample: one alice event (value 3,
quantity 1) in week `w`. -/
def exC3base : DB := (on_gift ⟨[], [], []⟩ "w" "alice" "rose" 3 1 0).1

/-- First finalize of week `w`: freezes `[(alice, 3)]` as rank 1. -/
def exC3f1 : DB := finalize_week exC3base "w" "t1"

/-- A bob event (value 1, quantity 5) ingested after the first finalize. -/
def exC3ing : DB := (on_gift exC3f1 "w" "bob" "rose" 1 5 2).1

/-- Second finalize of the same week, after the ingest. -/
def exC3f2 : DB := finalize_week exC3ing "w" "t2"

/-- C3 counterexample: snapshot rows already exist for week `w` after the
first finalize, yet the second call is NOT a no-op — with a new gifter
ingested in between it inserts an additional rank row, so calling finalize
twice does not leave the snapshot table in the state one call left it. -/
theorem finalize_week_not_noop_counterexample :
    exC3f1.weekly = [⟨"w", 1, "alice", 3, "t1"⟩] ∧
    exC3ing.weekly = exC3f1.weekly ∧
    exC3f2.weekly =
      [⟨"w", 1, "alice", 3, "t1"⟩, ⟨"w", 2, "alice", 3, "t2"⟩] ∧
    exC3f2.weekly ≠ exC3ing.weekly := by
  exact ⟨by decide, by decide, by decide, by decide⟩

end Bot

namespace Bot

/-! ### Scheduler lemmas -/

theorem countFinal_nil (p : String) : countFinal p [] = 0 := rfl

theorem countFinal_daily (p date : String) (rows : List (String × Nat)) :
    countFinal p [Post.daily date rows] = 0 := by
  simp [countFinal, List.countP_cons, isFinalFor]

theorem countFinal_final (p q : String) (rows : List (String × Nat)) :
    countFinal p [Post.final q rows] = if p = q then 1 else 0 := by
  by_cases h : q = p
  · simp [countFinal, List.countP_cons, isFinalFor, h]
  · simp only [countFinal, List.countP_cons, List.countP_nil, isFinalFor]
    rw [if_neg (fun hc : p = q => h hc.symm)]
    simp [h]

theorem countFinal_append (p : String) (l1 l2 : List Post) :
    countFinal p (l1 ++ l2) = countFinal p l1 + countFinal p l2 := by
  simp [countFinal, List.countP_append]

theorem daily_step_cases (cfg : Cfg) (db : DB) (w : Wake) :
    daily_step cfg db w = ⟨db, [], false⟩ ∨
    daily_step cfg db w =
      ⟨meta_set db "last_daily" w.date,
       [Post.daily w.date (top5_week db w.weekId)], false⟩ ∨
    daily_step cfg db w = ⟨db, [], true⟩ := by
  unfold daily_step
  by_cases h1 : w.hour = cfg.dailyHour ∧ w.minute = cfg.dailyMinute
  · rw [if_pos h1]
    by_cases h2 : meta_get db "last_daily" ≠ w.date
    · rw [if_pos h2]
      cases hok : w.dailyOk
      · rw [if_neg Bool.false_ne_true]
        right; right; rfl
      · rw [if_pos rfl]
        right; left; rfl
    · rw [if_neg h2]
      left; rfl
  · rw [if_neg h1]
    left; rfl

theorem daily_step_props (cfg : Cfg) (db : DB) (w : Wake) :
    (∀ p, countFinal p (daily_step cfg db w).posts = 0) ∧
    meta_get (daily_step cfg db w).db "last_final" = meta_get db "last_final" := by
  rcases daily_step_cases cfg db w with h | h | h <;> rw [h]
  · exact ⟨fun p => countFinal_nil p, rfl⟩
  · exact ⟨fun p => countFinal_daily p w.date _,
      meta_get_set_other db "last_final" "last_daily" _ (by decide)⟩
  · exact ⟨fun p => countFinal_nil p, rfl⟩

theorem schedule_cycle_final_cases (cfg : Cfg) (db : DB) (w : Wake) :
    ((∀ p, countFinal p (schedule_cycle cfg db w).posts = 0) ∧
      meta_get (schedule_cycle cfg db w).db "last_final" =
        meta_get db "last_final") ∨
    (meta_get db "last_final" ≠ w.weekId ∧
      (∀ p, countFinal p (schedule_cycle cfg db w).posts =
        if p = w.weekId then 1 else 0) ∧
      meta_get (schedule_cycle cfg db w).db "last_final" = w.weekId) := by
  obtain ⟨hc0, hcm⟩ := daily_step_props cfg db w
  unfold schedule_cycle
  cases herr : (daily_step cfg db w).err
  · simp only [herr, Bool.false_eq_true, if_false]
    unfold final_step
    by_cases hf : w.weekday = 7 ∧ w.hour = cfg.finalHour ∧ w.minute = cfg.finalMinute
    · rw [if_pos hf]
      by_cases hm : meta_get (daily_step cfg db w).db "last_final" ≠ w.weekId
      · rw [if_pos hm]
        cases hok : w.finalOk
        · rw [if_neg Bool.false_ne_true]
          left
          exact ⟨hc0, by rw [meta_get_finalize]; exact hcm⟩
        · rw [if_pos rfl]
          right
          refine ⟨by rw [← hcm]; exact hm, ?_, ?_⟩
          · intro p
            rw [countFinal_append, hc0 p, countFinal_final, Nat.zero_add]
          · exact meta_get_set_same _ "last_final" w.weekId
      · rw [if_neg hm]
        left
        exact ⟨hc0, hcm⟩
    · rw [if_neg hf]
      left
      exact ⟨hc0, hcm⟩
  · simp only [herr, if_true]
    left
    exact ⟨hc0, hcm⟩

theorem schedule_loop_zero (cfg : Cfg) (p : String) :
    ∀ (ws : List Wake) (db : DB),
      (∀ w ∈ ws, w.weekId = p) →
      meta_get db "last_final" = p →
      countFinal p (schedule_loop cfg db ws).posts = 0 ∧
      meta_get (schedule_loop cfg db ws).db "last_final" = p := by
  intro ws
  induction ws with
  | nil => exact fun db _ hm => ⟨rfl, hm⟩
  | cons w ws ih =>
    intro db hws hm
    unfold schedule_loop
    rcases schedule_cycle_final_cases cfg db w with ⟨hc0, hcm⟩ | ⟨hne, _, _⟩
    · cases herr : (schedule_cycle cfg db w).err
      · simp only [herr, Bool.false_eq_true, if_false]
        have hrec := ih (schedule_cycle cfg db w).db
          (fun x hx => hws x (List.mem_cons_of_mem w hx)) (by rw [hcm]; exact hm)
        refine ⟨?_, hrec.2⟩
        rw [countFinal_append, hc0 p, hrec.1]
      · simp only [herr, if_true]
        exact ⟨hc0 p, by rw [hcm]; exact hm⟩
    · exact absurd (by rw [hws w (List.mem_cons_self w ws)]; exact hm) hne

/-- C8: over any run of wakes whose current period id is `p`, the
scheduler delivers the final post for `p` at most once; and when the
durable `last_final` marker already equals `p` at the start of the run —
in particular in a fresh process after a restart, which reads the same
store — no final post for `p` is delivered at all. -/
theorem final_post_at_most_once (cfg : Cfg) (db : DB) (p : String)
    (ws : List Wake) (hws : ∀ w ∈ ws, w.weekId = p) :
    countFinal p (schedule_loop cfg db ws).posts ≤ 1 ∧
    (meta_get db "last_final" = p →
      countFinal p (schedule_loop cfg db ws).posts = 0) := by
  refine ⟨?_, fun hm => (schedule_loop_zero cfg p ws db hws hm).1⟩
  induction ws generalizing db with
  | nil => exact Nat.zero_le 1
  | cons w ws ih =>
    unfold schedule_loop
    rcases schedule_cycle_final_cases cfg db w with ⟨hc0, _⟩ | ⟨_, hc1, hcm⟩
    · cases herr : (schedule_cycle cfg db w).err
      · simp only [herr, Bool.false_eq_true, if_false]
        rw [countFinal_append, hc0 p, Nat.zero_add]
        exact ih (schedule_cycle cfg db w).db
          (fun x hx => hws x (List.mem_cons_of_mem w hx))
      · simp only [herr, if_true]
        rw [hc0 p]
        exact Nat.zero_le 1
    · have hwp : w.weekId = p := hws w (List.mem_cons_self w ws)
      cases herr : (schedule_cycle cfg db w).err
      · simp only [herr, Bool.false_eq_true, if_false]
        rw [countFinal_append, hc1 p, if_pos hwp.symm]
        have hrest := schedule_loop_zero cfg p ws (schedule_cycle cfg db w).db
          (fun x hx => hws x (List.mem_cons_of_mem w hx)) (by rw [hcm]; exact hwp)
        rw [hrest.1]
      · simp only [herr, if_true]
        rw [hc1 p, if_pos hwp.symm]

/-- Witness for `final_post_at_most_once` at a concrete run. -/
theorem final_post_at_most_once_witness :
    countFinal "w"
      (schedule_loop ⟨0, 0, 23, 59⟩ ⟨[], [], []⟩
        [⟨"d2", 7, 23, 59, "w", "t2", true, true⟩,
         ⟨"d3", 7, 23, 59, "w", "t3", true, true⟩]).posts ≤ 1 :=
  (final_post_at_most_once ⟨0, 0, 23, 59⟩ ⟨[], [], []⟩ "w"
    [⟨"d2", 7, 23, 59, "w", "t2", true, true⟩,
     ⟨"d3", 7, 23, 59, "w", "t3", true, true⟩] (by decide)).1

end Bot

namespace Bot

theorem schedule_cycle_final_ok (cfg : Cfg) (db : DB) (w : Wake)
    (hnd : ¬ (w.hour = cfg.dailyHour ∧ w.minute = cfg.dailyMinute))
    (hfd : w.weekday = 7 ∧ w.hour = cfg.finalHour ∧ w.minute = cfg.finalMinute)
    (hmk : meta_get db "last_final" ≠ w.weekId)
    (hok : w.finalOk = true) :
    schedule_cycle cfg db w =
      ⟨meta_set (finalize_week db w.weekId w.ts) "last_final" w.weekId,
       [Post.final w.weekId (top5_week db w.weekId)], false⟩ := by
  have hds : daily_step cfg db w = ⟨db, [], false⟩ := by
    unfold daily_step; rw [if_neg hnd]
  unfold schedule_cycle
  rw [hds]
  simp only [Bool.false_eq_true, if_false]
  unfold final_step
  rw [if_pos hfd]
  rw [if_pos hmk]
  rw [hok, if_pos rfl, top5_week_finalize]
  rw [List.nil_append]

theorem schedule_cycle_final_fail (cfg : Cfg) (db : DB) (w : Wake)
    (hnd : ¬ (w.hour = cfg.dailyHour ∧ w.minute = cfg.dailyMinute))
    (hfd : w.weekday = 7 ∧ w.hour = cfg.finalHour ∧ w.minute = cfg.finalMinute)
    (hmk : meta_get db "last_final" ≠ w.weekId)
    (hfail : w.finalOk = false) :
    schedule_cycle cfg db w = ⟨finalize_week db w.weekId w.ts, [], true⟩ := by
  have hds : daily_step cfg db w = ⟨db, [], false⟩ := by
    unfold daily_step; rw [if_neg hnd]
  unfold schedule_cycle
  rw [hds]
  simp only [Bool.false_eq_true, if_false]
  unfold final_step
  rw [if_pos hfd]
  rw [if_pos hmk]
  rw [hfail, if_neg Bool.false_ne_true]

/-- C10: when the final trigger fires (daily trigger idle) and the sink
rejects the post, the iteration ends in a raised error with the snapshot
freeze already committed — the resulting store is exactly the finalized
one — while the final marker is unchanged and no post was delivered: the
trigger's effects are not atomic under a delivery failure. -/
theorem final_failure_partial_effects (cfg : Cfg) (db : DB) (w : Wake)
    (hnd : ¬ (w.hour = cfg.dailyHour ∧ w.minute = cfg.dailyMinute))
    (hfd : w.weekday = 7 ∧ w.hour = cfg.finalHour ∧ w.minute = cfg.finalMinute)
    (hmk : meta_get db "last_final" ≠ w.weekId)
    (hfail : w.finalOk = false) :
    (schedule_cycle cfg db w).err = true ∧
    (schedule_cycle cfg db w).db = finalize_week db w.weekId w.ts ∧
    meta_get (schedule_cycle cfg db w).db "last_final" =
      meta_get db "last_final" ∧
    (schedule_cycle cfg db w).posts = [] := by
  rw [schedule_cycle_final_fail cfg db w hnd hfd hmk hfail]
  exact ⟨rfl, rfl, meta_get_finalize db w.weekId w.ts "last_final", rfl⟩

/-- Witness for `final_failure_partial_effects` at a concrete wake. -/
theorem final_failure_partial_effects_witness :
    (schedule_cycle ⟨0, 0, 23, 59⟩ ⟨[], [], []⟩
      ⟨"d", 7, 23, 59, "w", "t", true, false⟩).err = true ∧
    (schedule_cycle ⟨0, 0, 23, 59⟩ ⟨[], [], []⟩
      ⟨"d", 7, 23, 59, "w", "t", true, false⟩).posts = [] :=
  ⟨(final_failure_partial_effects ⟨0, 0, 23, 59⟩ ⟨[], [], []⟩
      ⟨"d", 7, 23, 59, "w", "t", true, false⟩
      (by decide) (by decide) (by decide) (by decide)).1,
   (final_failure_partial_effects ⟨0, 0, 23, 59⟩ ⟨[], [], []⟩
      ⟨"d", 7, 23, 59, "w", "t", true, false⟩
      (by decide) (by decide) (by decide) (by decide)).2.2.2⟩

/-- C2 (amended): when the final trigger fires with a succeeding sink, the
scheduler finalizes first and then posts a snapshot whose rows are
RECOMPUTED from the raw event log by `top5_week` — not read back from the
frozen `weekly_top5` table; when no snapshot rows existed for the period
before the wake, the recomputed rows coincide with the frozen ones read
back in rank order. -/
theorem final_trigger_posts_recomputed (cfg : Cfg) (db : DB) (w : Wake)
    (hnd : ¬ (w.hour = cfg.dailyHour ∧ w.minute = cfg.dailyMinute))
    (hfd : w.weekday = 7 ∧ w.hour = cfg.finalHour ∧ w.minute = cfg.finalMinute)
    (hmk : meta_get db "last_final" ≠ w.weekId)
    (hok : w.finalOk = true) :
    (schedule_cycle cfg db w).posts =
      [Post.final w.weekId (top5_week db w.weekId)] ∧
    ((∀ s ∈ db.weekly, ¬ s.week = w.weekId) →
      finalizedTopSpec (schedule_cycle cfg db w).db w.weekId =
        top5_week db w.weekId) := by
  rw [schedule_cycle_final_ok cfg db w hnd hfd hmk hok]
  refine ⟨rfl, ?_⟩
  intro hfresh
  have hweek : ∀ r ∈ withRanks w.weekId w.ts 1 (top5_week db w.weekId),
      r.week = w.weekId :=
    fun r hr => (withRanks_week_rank w.weekId w.ts _ 1 r hr).1
  have hnc : ∀ r ∈ withRanks w.weekId w.ts 1 (top5_week db w.weekId),
      ∀ s ∈ db.weekly, ¬ (s.week = r.week ∧ s.rank = r.rank) := by
    intro r hr s hs hc
    exact hfresh s hs (hc.1.trans (hweek r hr))
  have hpw : List.Pairwise (fun a b => ¬ (a.week = b.week ∧ a.rank = b.rank))
      (withRanks w.weekId w.ts 1 (top5_week db w.weekId)) :=
    (withRanks_pairwise_lt w.weekId w.ts _ 1).imp
      (fun h hc => absurd hc.2 (Nat.ne_of_lt h))
  have hw : (finalize_week db w.weekId w.ts).weekly =
      db.weekly ++ withRanks w.weekId w.ts 1 (top5_week db w.weekId) :=
    foldl_insertSnap_fresh _ db.weekly hnc hpw
  unfold finalizedTopSpec
  rw [meta_set_weekly, hw, List.filter_append]
  have hfe : db.weekly.filter (fun s => s.week = w.weekId) = [] :=
    List.filter_eq_nil_iff.mpr (fun a ha => by simpa using hfresh a ha)
  have hfr : (withRanks w.weekId w.ts 1 (top5_week db w.weekId)).filter
      (fun s => s.week = w.weekId) =
        withRanks w.weekId w.ts 1 (top5_week db w.weekId) :=
    List.filter_eq_self.mpr (fun a ha => by simpa using hweek a ha)
  rw [hfe, hfr, List.nil_append]
  rw [sortRankAsc_sorted_eq _
    ((withRanks_pairwise_lt w.weekId w.ts _ 1).imp Nat.le_of_lt)]
  exact withRanks_map w.weekId w.ts (top5_week db w.weekId) 1

/-- Witness for `final_trigger_posts_recomputed` at a concrete store. -/
theorem final_trigger_posts_recomputed_witness :
    (schedule_cycle ⟨0, 0, 23, 59⟩ exampleDB
      ⟨"d", 7, 23, 59, "2024-W05", "t", true, true⟩).posts =
      [Post.final "2024-W05" (top5_week exampleDB "2024-W05")] ∧
    finalizedTopSpec
      (schedule_cycle ⟨0, 0, 23, 59⟩ exampleDB
        ⟨"d", 7, 23, 59, "2024-W05", "t", true, true⟩).db "2024-W05" =
      top5_week exampleDB "2024-W05" :=
  ⟨(final_trigger_posts_recomputed ⟨0, 0, 23, 59⟩ exampleDB
      ⟨"d", 7, 23, 59, "2024-W05", "t", true, true⟩
      (by decide) (by decide) (by decide) (by decide)).1,
   (final_trigger_posts_recomputed ⟨0, 0, 23, 59⟩ exampleDB
      ⟨"d", 7, 23, 59, "2024-W05", "t", true, true⟩
      (by decide) (by decide) (by decide) (by decide)).2 (by decide)⟩

/-- Store for the C2 counterexample: the raw log now says bob leads with
9, but a frozen rank-1 snapshot row for alice (total 3) already exists. -/
def exC2db : DB :=
  ⟨[⟨⟨"w", "bob", "rose", 9, 1, 0⟩, "w", "bob", "rose", 1, 9, 0⟩],
   [⟨"w", 1, "alice", 3, "t0"⟩], []⟩

/-- A wake matching the final trigger with a succeeding sink. -/
def exC2wake : Wake := ⟨"d", 7, 23, 59, "w", "t1", true, true⟩

/-- The reference schedule configuration (daily 00:00, final Sun 23:59). -/
def exCfg : Cfg := ⟨0, 0, 23, 59⟩

/-- C2 counterexample: the final trigger posts rows recomputed from the
raw log (`[(bob, 9)]`), while the frozen snapshot read in rank order,
which the claim says is posted, still holds `[(alice, 3)]`. -/
theorem final_post_not_from_snapshot :
    (schedule_cycle exCfg exC2db exC2wake).posts =
      [Post.final "w" [("bob", 9)]] ∧
    finalizedTopSpec (schedule_cycle exCfg exC2db exC2wake).db "w" =
      [("alice", 3)] ∧
    ([("bob", (9 : Nat))] : List (String × Nat)) ≠ [("alice", 3)] := by
  exact ⟨by decide, by decide, by decide⟩

/-- First C1 wake: final trigger matches, the sink fails (status >= 300). -/
def exC1w1 : Wake := ⟨"d1", 7, 23, 59, "w", "t1", true, false⟩

/-- Second C1 wake: same trigger one poll later, the sink would succeed. -/
def exC1w2 : Wake := ⟨"d2", 7, 23, 59, "w", "t2", true, true⟩

/-- C1 evaluation: after the failed final post the marker is indeed not
persisted (the claim's marker clause holds), but the error escapes the
WHOLE loop, not just the current cycle: the run over both wakes delivers
no post and ends with the loop dead, even though running one more cycle
from the resulting store would succeed — the claimed retry never runs. -/
theorem delivery_failure_kills_schedule_loop :
    meta_get (schedule_loop exCfg exC2db [exC1w1, exC1w2]).db "last_final" = "" ∧
    (schedule_loop exCfg exC2db [exC1w1, exC1w2]).posts = [] ∧
    (schedule_loop exCfg exC2db [exC1w1, exC1w2]).err = true ∧
    (schedule_cycle exCfg (schedule_loop exCfg exC2db [exC1w1, exC1w2]).db
      exC1w2).posts ≠ [] := by
  exact ⟨by decide, by decide, by decide, by decide⟩

end Bot
